import Mathlib

/-!
# A verification development for the RSTM software-transactional-memory library

This file gives a shallow embedding, in Lean 4, of the concurrency-control
algorithms of the RSTM repository that the specification describes:

* the eager-acquire, undo-logging orec algorithm
  (`branches/oneshot-itm/lib/OrecEager.hpp`);
* the commit-token ordered algorithms
  (`branches/oneshot/lib/CToken.cpp`, `branches/wenjia/libstm/algs/CTokenTurbo.cpp`);
* the read-after-write lookup used by the redo-log algorithms
  (`libstm/algs/CohortsLNQX.cpp`, `CTokenTurbo.cpp`);
* the cohort abort-inside-commit paths
  (`branches/wenjia/libstm/algs/cohorts.cpp`, `libstm/algs/CohortsLNQX.cpp`);
* the bytelock (TLRW) algorithm (`branches/wenjia/libstm/algs/ByteEager.cpp`);
* the fastlane master/helper begin (`branches/wenjia/libstm/algs/FastlaneSwitch.cpp`).

Machine words are modelled byte-wise (a word is a map from byte index to byte
value), machine integers as `Nat` with explicit bit-mask arithmetic where the
source manipulates bits, and each barrier as an explicit state-passing
function.  Loops whose exit depends on other threads take the sequence of
observed shared values (or the post-wait value) as an explicit argument.
-/

namespace RSTM

/-! ## Byte-granular words and masks -/

/-- A machine word, byte by byte (8 bytes). -/
abbrev Word := Fin 8 → Nat

/-- A byte mask selecting which bytes of a word an access covers. -/
abbrev ByteMask := Fin 8 → Bool

/-- Masked store: bytes selected by the mask come from `new`, the rest keep
the old contents (the semantics of `STM_DO_MASKED_WRITE` / the byte-logging
`WordType::Write`). -/
def maskedWrite (old new : Word) (m : ByteMask) : Word :=
  fun i => if m i then new i else old i

/-- Number of ownership-record stripes (`NUM_STRIPES = 1048576` in
`branches/wenjia/libstm/algs.hpp`). -/
def NUM_STRIPES : Nat := 1048576

/-- Address-to-orec hash, from `get_orec` in `branches/wenjia/libstm/algs.hpp`
(`&orecs[(index>>3) % NUM_STRIPES]`); the spec gives the same map for the
oneshot-itm branch. -/
def orecOf (addr : Nat) : Nat := (addr >>> 3) % NUM_STRIPES

/-! ## OrecEager (branches/oneshot-itm/lib/OrecEager.hpp)

An orec word `v.all` is either a version number (high bit clear) or a lock
word `my_lock` (high bit set, low bits the thread id); `p` is the previous
version saved at acquisition time.  `LOCKBIT` is the high bit of a 64-bit
word. -/

def LOCKBIT : Nat := 2 ^ 63

/-- One ownership record: current word `v` and saved previous version `p`
(struct `orec_t` in metadata.hpp). -/
structure Orec where
  v : Nat
  p : Nat

/-- Global state touched by OrecEager: the global timestamp, the orec table
and memory. -/
structure EagerState where
  timestamp : Nat
  orecs : Nat → Orec
  mem : Nat → Word

/-- Per-thread descriptor fields used by OrecEager (`TX` in tx.hpp). -/
structure EagerTx where
  id : Nat
  start_time : Nat
  locks : List Nat
  undo_log : List (Nat × Word × ByteMask)
  r_orecs : List Nat
  commits_ro : Nat
  commits_rw : Nat
  aborts : Nat

/-- The thread's lock word `my_lock`: high bit set, low bits the id. -/
def myLock (tx : EagerTx) : Nat := LOCKBIT + tx.id

/-- One logged orec passes validation if it is no newer than start_time or is
owned by this thread (`(ivt > tx->start_time) && (ivt != tx->my_lock.all)`
aborts). -/
def orecOk (s : EagerState) (tx : EagerTx) (i : Nat) : Bool :=
  decide ((s.orecs i).v ≤ tx.start_time) || decide ((s.orecs i).v = myLock tx)

/-- Translation of `validate` / `validate_commit` of OrecEager.hpp: every logged orec must
pass `orecOk`; `true` means validation succeeds (the C++ aborts otherwise). -/
def validateOk (s : EagerState) (tx : EagerTx) : Bool :=
  tx.r_orecs.all (orecOk s tx)

/-- Translation of `alg_tm_begin`: sample the global timestamp into start_time. -/
def tmBegin (s : EagerState) (tx : EagerTx) : EagerTx :=
  { tx with start_time := s.timestamp }

inductive ReadOutcome where
  | hitOwn (v : Word)
  | hitFresh (v : Word)
  | abortR
  | extendedR

/-- One iteration of the `Read` functor of OrecEager.hpp.  In this atomic
model the two orec samples around the dereference coincide.  `extendedR`
means the code re-samples the timestamp, revalidates, extends start_time and
retries the loop. -/
def readStep (s : EagerState) (tx : EagerTx) (addr : Nat) :
    EagerState × EagerTx × ReadOutcome :=
  let i := orecOf addr
  let ivt := (s.orecs i).v
  let tmp := s.mem addr
  if ivt = myLock tx then
    (s, tx, .hitOwn tmp)
  else if ivt ≤ tx.start_time then
    (s, { tx with r_orecs := tx.r_orecs ++ [i] }, .hitFresh tmp)
  else if LOCKBIT ≤ ivt then
    (s, tx, .abortR)
  else if validateOk s tx then
    (s, { tx with start_time := s.timestamp }, .extendedR)
  else
    (s, tx, .abortR)

inductive WriteOutcome where
  | acquired
  | owned
  | abortW
  | extendedW

/-- One iteration of the `Write` functor of OrecEager.hpp.  `casOk` is the
outcome of `bcasptr(&o->v.all, ivt.all, tx->my_lock.all)` when that CAS is
attempted.  `extendedW` means the loop re-samples the timestamp, revalidates,
extends start_time and retries. -/
def writeStep (s : EagerState) (tx : EagerTx) (addr : Nat) (val : Word)
    (mask : ByteMask) (casOk : Bool) : EagerState × EagerTx × WriteOutcome :=
  let i := orecOf addr
  let ivt := (s.orecs i).v
  if ivt ≤ tx.start_time then
    if casOk then
      ({ s with orecs := Function.update s.orecs i ⟨myLock tx, ivt⟩,
                mem := Function.update s.mem addr (maskedWrite (s.mem addr) val mask) },
       { tx with locks := tx.locks ++ [i],
                 undo_log := tx.undo_log ++ [(addr, s.mem addr, mask)] },
       .acquired)
    else
      (s, tx, .abortW)
  else if ivt = myLock tx then
    ({ s with mem := Function.update s.mem addr (maskedWrite (s.mem addr) val mask) },
     { tx with undo_log := tx.undo_log ++ [(addr, s.mem addr, mask)] },
     .owned)
  else if LOCKBIT ≤ ivt then
    (s, tx, .abortW)
  else if validateOk s tx then
    (s, { tx with start_time := s.timestamp }, .extendedW)
  else
    (s, tx, .abortW)

/-- The commit release loop (`(*i)->v.all = end_time` for each held lock);
`p` is untouched. -/
def releaseAll (f : Nat → Orec) (t : Nat) : List Nat → (Nat → Orec)
  | [] => f
  | i :: ls => releaseAll (Function.update f i ⟨t, (f i).p⟩) t ls

inductive CommitOutcome where
  | roCommit
  | rwCommit
  | abortC
deriving DecidableEq

/-- Translation of `alg_tm_end` of OrecEager.hpp for the outermost nesting level: read-only
fast path when no locks are held; otherwise fetch-and-add the timestamp to
obtain end_time, validate unless `end_time == start_time + 1`, and release
every lock to end_time. -/
def commitStep (s : EagerState) (tx : EagerTx) :
    EagerState × EagerTx × CommitOutcome :=
  if tx.locks.isEmpty then
    (s, { tx with r_orecs := [], commits_ro := tx.commits_ro + 1 }, .roCommit)
  else
    let end_time := s.timestamp + 1
    let s1 := { s with timestamp := end_time }
    if end_time ≠ tx.start_time + 1 ∧ validateOk s1 tx = false then
      (s1, tx, .abortC)
    else
      ({ s1 with orecs := releaseAll s1.orecs end_time tx.locks },
       { tx with locks := [], undo_log := [], r_orecs := [],
                 commits_rw := tx.commits_rw + 1 },
       .rwCommit)

/-- The rollback release loop: each held orec is set to its saved previous
version plus one, and the maximum value written is tracked
(`newver = (*j)->p + 1; (*j)->v.all = newver; max = ...`). -/
def releaseBump (f : Nat → Orec) (mx : Nat) : List Nat → (Nat → Orec) × Nat
  | [] => (f, mx)
  | i :: ls =>
      releaseBump (Function.update f i ⟨(f i).p + 1, (f i).p⟩)
        (max mx ((f i).p + 1)) ls

/-- Undo-log replay (`GenericUndoLog::undo`, applied to the reversed list:
the C++ iterates `rbegin()..rend()`); each entry restores its masked bytes. -/
def undoReplay (m : Nat → Word) : List (Nat × Word × ByteMask) → (Nat → Word)
  | [] => m
  | e :: rest => undoReplay (Function.update m e.1 (maskedWrite (m e.1) e.2.1 e.2.2)) rest

/-- Translation of `alg_tm_rollback` of OrecEager.hpp: replay the undo log in reverse,
release each lock to prev + 1 tracking the maximum, and if that maximum
exceeds the timestamp, bump the timestamp by one (the CAS is assumed to have
no transient failures, as the source comments). -/
def rollbackStep (s : EagerState) (tx : EagerTx) : EagerState × EagerTx :=
  let mem1 := undoReplay s.mem tx.undo_log.reverse
  let rb := releaseBump s.orecs 0 tx.locks
  let ts1 := if s.timestamp < rb.2 then s.timestamp + 1 else s.timestamp
  ({ timestamp := ts1, orecs := rb.1, mem := mem1 },
   { tx with aborts := tx.aborts + 1, r_orecs := [], undo_log := [], locks := [] })

/-- The operations of one OrecEager transaction, as atomic steps on the
global state plus that thread's descriptor. -/
inductive EagerStep where
  | beginS
  | readS (addr : Nat)
  | writeS (addr : Nat) (val : Word) (mask : ByteMask) (casOk : Bool)
  | commitS
  | rollbackS

/-- Step function tying the five OrecEager operations together. -/
def estep : EagerStep → EagerState × EagerTx → EagerState × EagerTx
  | .beginS, (s, tx) => (s, tmBegin s tx)
  | .readS a, (s, tx) => ((readStep s tx a).1, (readStep s tx a).2.1)
  | .writeS a v m c, (s, tx) => ((writeStep s tx a v m c).1, (writeStep s tx a v m c).2.1)
  | .commitS, (s, tx) => ((commitStep s tx).1, (commitStep s tx).2.1)
  | .rollbackS, (s, tx) => rollbackStep s tx

/-- The OrecEager timestamp invariant, inductively strengthened: every
unlocked orec's version is at most the global timestamp; every locked orec's
saved previous version is at most the timestamp; the transaction's
start_time is at most the timestamp; and every orec on the thread's lock
list is locked. -/
structure EagerInv (s : EagerState) (tx : EagerTx) : Prop where
  unlockedLe : ∀ i, (s.orecs i).v < LOCKBIT → (s.orecs i).v ≤ s.timestamp
  lockedPrev : ∀ i, LOCKBIT ≤ (s.orecs i).v → (s.orecs i).p ≤ s.timestamp
  startLe : tx.start_time ≤ s.timestamp
  locksLocked : ∀ i ∈ tx.locks, LOCKBIT ≤ (s.orecs i).v

/-! ## CToken and CTokenTurbo (branches/oneshot/lib/CToken.cpp,
branches/wenjia/libstm/algs/CTokenTurbo.cpp)

The ordered-commit algorithms share the last-completed counter, the orec
table and memory.  The writeback loop marks each written location's orec
with the transaction's order, then writes the value back; an event list in
the global state records each mark and store in the sequence in which the
code performs them. -/

inductive CEvent where
  | mark (orec : Nat) (ver : Nat)
  | store (addr : Nat)
deriving DecidableEq

structure CTokState where
  lastComplete : Nat
  orecs : Nat → Nat
  mem : Nat → Word
  events : List CEvent

/-- Mark an orec with a version (`o->v.all = tx->order`). -/
def markOrec (s : CTokState) (i ver : Nat) : CTokState :=
  { s with orecs := Function.update s.orecs i ver,
           events := s.events ++ [.mark i ver] }

/-- Write a word back to memory (`*i->addr = i->val`). -/
def storeMem (s : CTokState) (a : Nat) (v : Word) : CTokState :=
  { s with mem := Function.update s.mem a v,
           events := s.events ++ [.store a] }

/-- The writeback loop of CToken `tm_end` / CTokenTurbo `commit_rw`: for each
write-set entry, mark the covering orec with the order, then write the value
back (in that sequence, with a WBW fence between them in the source). -/
def ctokenWriteback (ord : Nat) : CTokState → List (Nat × Word) → CTokState
  | s, [] => s
  | s, e :: rest => ctokenWriteback ord (storeMem (markOrec s (orecOf e.1) ord) e.1 e.2) rest

/-- The expected event trace of the ordered writeback: for each write-set
entry, the mark of its orec (with the order) strictly before the store to
its address. -/
def wbEvents (ord : Nat) : List (Nat × Word) → List CEvent
  | [] => []
  | e :: rest => CEvent.mark (orecOf e.1) ord :: CEvent.store e.1 :: wbEvents ord rest

/-- Per-thread descriptor fields used by oneshot CToken. -/
structure CTokTx where
  order : Int
  ts_cache : Nat
  r_orecs : List Nat
  writes : List (Nat × Word)
  commits_ro : Nat
  commits_rw : Nat

/-- CToken `validate`: abort if any logged orec is newer than ts_cache
(`true` = validation passes; on success the caller updates ts_cache). -/
def ctokenValidateOk (s : CTokState) (tx : CTokTx) : Bool :=
  tx.r_orecs.all fun i => decide (s.orecs i ≤ tx.ts_cache)

inductive CTokOutcome where
  | roC
  | rwC
  | abortCk
deriving DecidableEq

/-- Common tail of the ordered commits: write back, publish the order into
last_complete, reset the lists. -/
def ctokenFinish (s : CTokState) (ord : Nat) (ws : List (Nat × Word)) : CTokState :=
  { ctokenWriteback ord s ws with lastComplete := ord }

/-- Translation of `tm_end` of oneshot CToken.cpp at the outermost nesting level, taken at
the moment the wait loop `while (last_complete.val != order - 1)` has exited
(the theorems about it carry that exit condition as a hypothesis).  A
transaction without an order takes the read-only path; a writer validates
when `last_complete.val > ts_cache`, writes back, publishes its order and
resets its order to -1. -/
def ctokenCommit (s : CTokState) (tx : CTokTx) : CTokState × CTokTx × CTokOutcome :=
  if tx.order = -1 then
    (s, { tx with r_orecs := [], commits_ro := tx.commits_ro + 1 }, .roC)
  else
    if tx.ts_cache < s.lastComplete then
      if ctokenValidateOk s tx then
        (ctokenFinish s tx.order.toNat tx.writes,
         { tx with ts_cache := s.lastComplete, order := -1, r_orecs := [],
                   writes := [], commits_rw := tx.commits_rw + 1 },
         .rwC)
      else (s, tx, .abortCk)
    else
      (ctokenFinish s tx.order.toNat tx.writes,
       { tx with order := -1, r_orecs := [], writes := [],
                 commits_rw := tx.commits_rw + 1 },
       .rwC)

/-- Per-thread mode: the triple of read/write/commit function pointers
installed for this thread (read-only, read-write, or turbo variants). -/
inductive TMode where
  | ro
  | rw
  | turbo
deriving DecidableEq

/-- Per-thread descriptor fields used by wenjia CTokenTurbo. -/
structure TurboTx where
  mode : TMode
  order : Int
  ts_cache : Nat
  r_orecs : List Nat
  writes : List (Nat × Word)
  num_aborts : Nat
  num_commits : Nat

/-- CTokenTurbo's commit validation loop (inlined in `commit_rw`): abort if
any logged orec is newer than ts_cache. -/
def turboValidateOk (s : CTokState) (tx : TurboTx) : Bool :=
  tx.r_orecs.all fun i => decide (s.orecs i ≤ tx.ts_cache)

/-- Translation of `commit_rw` of CTokenTurbo.cpp, taken at the moment the wait loop
`while (last_complete.val != order - 1)` has exited.  The oldest transaction
(`ts_cache == order - 1`) skips validation.  `OnReadWriteCommit` resets the
per-thread pointers to the read-only variants; the order field is left
unchanged. -/
def ctokenTurboCommitRW (s : CTokState) (tx : TurboTx) :
    CTokState × TurboTx × CTokOutcome :=
  if (tx.ts_cache : Int) ≠ tx.order - 1 then
    if turboValidateOk s tx then
      (ctokenFinish s tx.order.toNat tx.writes,
       { tx with r_orecs := [], writes := [], mode := .ro,
                 num_commits := tx.num_commits + 1 },
       .rwC)
    else (s, tx, .abortCk)
  else
    (ctokenFinish s tx.order.toNat tx.writes,
     { tx with r_orecs := [], writes := [], mode := .ro,
               num_commits := tx.num_commits + 1 },
     .rwC)

inductive RollbackRes where
  | fatal
  | rolledBack
deriving DecidableEq

/-- Translation of `CTokenTurbo::rollback`: `PreRollback` (abort counters), then
`if (stm::CheckTurboMode(read_turbo)) UNRECOVERABLE(...)` — a turbo-mode
transaction terminates the process instead of being rolled back; otherwise
the redo log is discarded and `PostRollback` runs (the order field is kept,
as the source comment explains). -/
def ctokenTurboRollback (tx : TurboTx) : TurboTx × RollbackRes :=
  let tx1 := { tx with num_aborts := tx.num_aborts + 1 }
  if tx1.mode = .turbo then (tx1, .fatal)
  else ({ tx1 with r_orecs := [], writes := [] }, .rolledBack)

/-! ## Read-after-write lookup (libstm/algs/CohortsLNQX.cpp `ReadRW`,
CTokenTurbo.cpp `read_rw`) -/

/-- A write-set entry: address, word value, byte mask. -/
structure WSEntry where
  addr : Nat
  val : Word
  mask : ByteMask

/-- Modelled from the spec: `WriteSet::insert` is not under src/; the spec
describes the write set as a "hash-indexed open-addressed table of
(address, value, mask) entries", keyed by address and supporting "masked
words", so inserting merges the new masked bytes over the entry already
present for that address (new bytes win) and unions the masks. -/
def wsInsert : List WSEntry → Nat → Word → ByteMask → List WSEntry
  | [], a, v, m => [⟨a, v, m⟩]
  | e :: rest, a, v, m =>
      if e.addr = a then
        ⟨a, maskedWrite e.val v m, fun i => m i || e.mask i⟩ :: rest
      else
        e :: wsInsert rest a v m

/-- Modelled from the spec: `WriteSet::find` is not under src/; it is the
find-by-address lookup of the hash-indexed write set. -/
def wsFind (ws : List WSEntry) (a : Nat) : Option WSEntry :=
  ws.find? fun e => e.addr = a

/-- The read-after-write path of `CohortsLNQX::ReadRW` / `CTokenTurbo::read_rw`.
The `REDO_RAW_CHECK` / `REDO_RAW_CLEANUP` macros are not under src/ and are
modelled from the spec: "the read-after-write lookup in the write set
supplies the written bytes and memory supplies the rest". -/
def readRW (ws : List WSEntry) (mem : Nat → Word) (a : Nat) : Word :=
  match wsFind ws a with
  | some e => fun i => if e.mask i then e.val i else mem a i
  | none => mem a

/-! ## Cohort abort-inside-commit paths -/

/-- Global counters of wenjia Cohorts (cohorts.cpp): started / cpending /
committed transaction counts and the last-complete order. -/
structure CohState where
  started : Nat
  cpending : Nat
  committed : Nat
  lastComplete : Nat

/-- Translation of `Cohorts::TxAbortWrapper`: a thread that aborts inside commit after
obtaining an order increments the committed count and publishes its order
into last_complete before calling `tmabort`. -/
def txAbortWrapper (s : CohState) (order : Nat) : CohState :=
  { s with committed := s.committed + 1, lastComplete := order }

/-- The begin gate of Cohorts: `begin` spins `while (cpending != committed)`,
so new transactions may start exactly when the two counters agree. -/
def cohortGateOpen (s : CohState) : Prop := s.cpending = s.committed

/-- Cohort status constants of branches/wenjia/libstm/algs.hpp. -/
def COHORTS_NOTDONE : Nat := 3

def COHORTS_DONE : Nat := 4

/-- Global state of CohortsLNQX: the commit queue tail `q` (the thread id
whose turn node was last pushed; `none` = empty), the early-seal flag, and
each thread's turn value. -/
structure LNQXState where
  q : Option Nat
  sealed : Nat
  turn : Nat → Nat

/-- The abort path inside `CohortsLNQX::CommitRW` after failed validation:
mark the own turn node DONE, and if this thread's node is the queue tail,
clear the seal and reset the queue, before calling `stm::tmabort()`. -/
def lnqxCommitAbort (s : LNQXState) (me : Nat) : LNQXState :=
  let s1 := { s with turn := Function.update s.turn me COHORTS_DONE }
  if s1.q = some me then { s1 with sealed := 0, q := none } else s1

/-! ## ByteEager (branches/wenjia/libstm/algs/ByteEager.cpp)

The read barriers take the sequence of values observed when loading the
bytelock's writer field (`obs k` is the k-th load) and the current memory
word; the action list records the reader-byte transitions the barrier
performs, in order. -/

def READ_TIMEOUT : Nat := 32

inductive BEAct where
  | setByte
  | clearByte
deriving DecidableEq

inductive BEReadRes where
  | ret (v : Word)
  | abortTimeout
  | fuelOut

/-- The inner wait loop of the read barriers,
`while (lock->owner != 0) { if (++tries > READ_TIMEOUT) tx->tmabort(); }`,
with the remaining budget kept equal to `READ_TIMEOUT + 1 - tries` so that
the recursion is structural: the loop makes at most `READ_TIMEOUT + 1 - tries`
further owner loads before aborting.  `none` = abort; `some (idx, tries)` =
the owner was observed 0 after load `idx - 1`, with `tries` preserved across
outer iterations as in the code. -/
def spinOwnerFrom (obs : Nat → Nat) : Nat → Nat → Nat → Option (Nat × Nat)
  | 0, _, _ => none
  | b + 1, idx, tries =>
      if obs idx = 0 then some (idx + 1, tries)
      else spinOwnerFrom obs b (idx + 1) (tries + 1)

/-- The inner wait loop entered with the running `tries` counter. -/
def spinOwner (obs : Nat → Nat) (idx tries : Nat) : Option (Nat × Nat) :=
  spinOwnerFrom obs (READ_TIMEOUT + 1 - tries) idx tries

/-- The outer acquisition loop of `ByteEager::read_ro` (the `tries` counter
persists across outer iterations): set my reader byte, load the owner
(`obs idx`); if it is 0 return the memory word (byte left set); otherwise
clear the byte and wait in `spinOwner` for the writer to leave, aborting on
timeout.  `fuel` bounds the number of outer iterations, which the code does
not bound. -/
def beReadLoop (obs : Nat → Nat) (mem : Word) : Nat → Nat → Nat → BEReadRes × List BEAct
  | 0, _, _ => (.fuelOut, [])
  | fuel + 1, idx, tries =>
      if obs idx = 0 then (.ret mem, [.setByte])
      else
        match spinOwner obs (idx + 1) tries with
        | none => (.abortTimeout, [.setByte, .clearByte])
        | some (idx', tries') =>
            let r := beReadLoop obs mem fuel idx' tries'
            (r.1, .setByte :: .clearByte :: r.2)

/-- Translation of `ByteEager::read_ro`: if my reader byte is already set, return the memory
word immediately; otherwise log the bytelock and run the acquisition loop. -/
def byteEagerReadRO (alreadyReader : Bool) (obs : Nat → Nat) (mem : Word)
    (fuel : Nat) : BEReadRes × List BEAct :=
  if alreadyReader then (.ret mem, [])
  else beReadLoop obs mem fuel 0 0

/-- Translation of `ByteEager::read_rw`: a writing transaction first checks whether it
already owns the write lock (`lock->owner == tx->id`, the load is `obs 0`)
and if so returns the in-place word; then the same protocol as read_ro. -/
def byteEagerReadRW (me : Nat) (alreadyReader : Bool) (obs : Nat → Nat)
    (mem : Word) (fuel : Nat) : BEReadRes × List BEAct :=
  if obs 0 = me then (.ret mem, [])
  else if alreadyReader then (.ret mem, [])
  else beReadLoop obs mem fuel 1 0

/-! ## The bytelock state machine

One bytelock (`bytelock_t`: a writer-id word plus per-thread reader bytes)
under the atomic actions the ByteEager barriers perform on it.  Thread ids
are positive (`tx->id >= 1`; the reader byte index is `tx->id - 1`, the
writer field stores `tx->id`). -/

structure BLState where
  owner : Nat
  reader : Nat → Nat

inductive BLAct where
  | setB (t : Nat)
  | clearB (t : Nat)
  | casOwner (t : Nat)
  | releaseOwner (t : Nat)
deriving DecidableEq

/-- One atomic action on a bytelock.  `setB` is `lock->set_read_byte` in the
read loops (performed regardless of the writer field); `clearB` is
`lock->reader[tx->id-1] = 0` (read retry, write acquisition, commit,
rollback); `casOwner` is a successful `bcas32(&lock->owner, 0, tx->id)` in
the write barriers, which checks only that the owner is 0; `releaseOwner` is
`(*i)->owner = 0` in commit_rw / rollback, performed only by the thread that
acquired the lock.  `none` means the action cannot fire in this state. -/
def blStep (s : BLState) : BLAct → Option BLState
  | .setB t => some { s with reader := Function.update s.reader t 1 }
  | .clearB t => some { s with reader := Function.update s.reader t 0 }
  | .casOwner t => if s.owner = 0 ∧ t ≠ 0 then some { s with owner := t } else none
  | .releaseOwner t => if s.owner = t then some { s with owner := 0 } else none

/-- Run a sequence of bytelock actions. -/
def blRun : BLState → List BLAct → Option BLState
  | s, [] => some s
  | s, a :: tr =>
      match blStep s a with
      | some s' => blRun s' tr
      | none => none

/-- The initial bytelock: free, no reader bytes set. -/
def blInit : BLState := { owner := 0, reader := fun _ => 0 }

/-! ## FastlaneSwitch begin (branches/wenjia/libstm/algs/FastlaneSwitch.cpp) -/

/-- The most significant bit of the 32-bit fastlane counter. -/
def MSB32 : Nat := 2 ^ 31

/-- Computation of `cntr & ~MSB` on a 32-bit word. -/
def clearMSB (n : Nat) : Nat := n &&& (2 ^ 31 - 1)

/-- Computation of `cntr & ~1` on a 32-bit word. -/
def clearLSB (n : Nat) : Nat := n &&& (2 ^ 32 - 2)

structure FLState where
  master : Nat
  cntr : Nat

structure FLTx where
  mode : TMode
  start_time : Nat

/-- Translation of `FastlaneSwitchBegin`.  `casWin` is the outcome of
`bcas32(&master, 0, 1)`; `cWait` is the (even) counter value observed when
the wait loop `while ((cntr & 0x01) != 0)` exits.  A thread that wins the
CAS sets the counter's MSB, waits, increments the counter from even to odd
(`cntr = (cntr & ~MSB) + 1`) and calls `GoTurbo` with the turbo variants —
but the `if` block has no return statement, so control falls through to the
helper tail, which overwrites start_time with `cntr & ~1 & ~MSB` and calls
`GoTurbo` with the read-only (helper) variants. -/
def fastlaneSwitchBegin (s : FLState) (tx : FLTx) (casWin : Bool) (cWait : Nat) :
    FLState × FLTx :=
  if s.master = 0 ∧ casWin = true then
    let c1 := (clearMSB cWait + 1) % 2 ^ 32
    let s1 : FLState := { master := 1, cntr := c1 }
    let tx1 : FLTx := { tx with mode := .turbo }
    let tx2 : FLTx := { tx1 with start_time := clearLSB (clearMSB s1.cntr) }
    (s1, { tx2 with mode := .ro })
  else
    let tx2 : FLTx := { tx with start_time := clearLSB (clearMSB s.cntr) }
    (s, { tx2 with mode := .ro })

/-! ## Concrete states used to exercise the model -/

/-- A word with every byte 5. -/
def exWord : Word := fun _ => 5

/-- A word with every byte 0. -/
def zeroWord : Word := fun _ => 0

/-- The full byte mask. -/
def fullMask : ByteMask := fun _ => true

/-- Initial OrecEager global state: timestamp 0, all orecs unlocked at
version 0. -/
def exS0 : EagerState :=
  { timestamp := 0, orecs := fun _ => ⟨0, 0⟩, mem := fun _ => zeroWord }

/-- A fresh OrecEager transaction for thread 1. -/
def exT0 : EagerTx :=
  { id := 1, start_time := 0, locks := [], undo_log := [], r_orecs := [],
    commits_ro := 0, commits_rw := 0, aborts := 0 }

/-- A commit configuration for thread 7: it holds orec 0, logged a read of
orec 1 which is now locked by thread 99, and the timestamp still equals its
start_time. -/
def c3S : EagerState :=
  { timestamp := 5,
    orecs := fun i =>
      if i = 0 then ⟨LOCKBIT + 7, 3⟩
      else if i = 1 then ⟨LOCKBIT + 99, 2⟩
      else ⟨0, 0⟩,
    mem := fun _ => zeroWord }

/-- The descriptor matching `c3S`. -/
def c3T : EagerTx :=
  { id := 7, start_time := 5, locks := [0], undo_log := [], r_orecs := [1],
    commits_ro := 0, commits_rw := 0, aborts := 0 }

/-- A CToken-family global state with last_complete 1. -/
def c4S : CTokState :=
  { lastComplete := 1, orecs := fun _ => 0, mem := fun _ => zeroWord, events := [] }

/-- A CTokenTurbo writer with order 2 about to commit in its turn. -/
def c4TT : TurboTx :=
  { mode := .rw, order := 2, ts_cache := 1, r_orecs := [], writes := [(8, exWord)],
    num_aborts := 0, num_commits := 0 }

/-- A oneshot-CToken writer with order 2 about to commit in its turn. -/
def c4T : CTokTx :=
  { order := 2, ts_cache := 1, r_orecs := [], writes := [(8, exWord)],
    commits_ro := 0, commits_rw := 0 }

/-- A cohort state in which one committer is pending and unaccounted. -/
def c6S : CohState :=
  { started := 3, cpending := 3, committed := 2, lastComplete := 4 }

/-- An LNQX state in which thread 2's turn node is the queue tail and the
cohort is sealed. -/
def c6Q : LNQXState :=
  { q := some 2, sealed := 1, turn := fun _ => COHORTS_NOTDONE }

/-- An owner-observation sequence that is constantly thread 3 (a writer that
never leaves). -/
def obs3 : Nat → Nat := fun _ => 3

/-- An owner-observation sequence that is constantly 0 (no writer). -/
def obs0 : Nat → Nat := fun _ => 0

/-- The bytelock state reached by thread 1 taking a read byte and thread 2
then acquiring the writer field: a reader byte is 1 while the writer field
holds a different thread. -/
def c8bad : BLState :=
  { owner := 2, reader := Function.update (fun _ => 0) 1 1 }

/-- A bytelock held by thread 3. -/
def c8held : BLState := { owner := 3, reader := fun _ => 0 }

/-- The state `c8held` after thread 1 sets its reader byte. -/
def c8heldR : BLState := { owner := 3, reader := Function.update (fun _ => 0) 1 1 }

/-- A turbo-mode CTokenTurbo descriptor about to be rolled back. -/
def c10T : TurboTx :=
  { mode := .turbo, order := 5, ts_cache := 4, r_orecs := [2], writes := [(16, exWord)],
    num_aborts := 0, num_commits := 0 }

/-! ## Helper lemmas about the release loops -/

theorem releaseAll_p (f : Nat → Orec) (t : Nat) (ls : List Nat) (j : Nat) :
    (releaseAll f t ls j).p = (f j).p := by
  induction ls generalizing f with
  | nil => rfl
  | cons i ls ih =>
      simp only [releaseAll]
      rw [ih]
      by_cases hji : j = i
      · subst hji; simp [Function.update_same]
      · simp [Function.update_noteq hji]

theorem releaseAll_cases (f : Nat → Orec) (t : Nat) (ls : List Nat) (j : Nat) :
    releaseAll f t ls j = f j ∨ (j ∈ ls ∧ releaseAll f t ls j = ⟨t, (f j).p⟩) := by
  induction ls generalizing f with
  | nil => exact Or.inl rfl
  | cons i ls ih =>
      simp only [releaseAll]
      rcases ih (Function.update f i ⟨t, (f i).p⟩) with h1 | ⟨hm, h2⟩
      · by_cases hji : j = i
        · subst hji
          exact Or.inr ⟨List.mem_cons_self _ _, by rw [h1, Function.update_same]⟩
        · exact Or.inl (by rw [h1, Function.update_noteq hji])
      · refine Or.inr ⟨List.mem_cons_of_mem _ hm, ?_⟩
        rw [h2]
        by_cases hji : j = i
        · subst hji; simp [Function.update_same]
        · simp [Function.update_noteq hji]

theorem releaseAll_mem (f : Nat → Orec) (t : Nat) (ls : List Nat) (j : Nat)
    (h : j ∈ ls) : (releaseAll f t ls j).v = t := by
  induction ls generalizing f with
  | nil => cases h
  | cons i ls ih =>
      simp only [releaseAll]
      by_cases hm : j ∈ ls
      · exact ih _ hm
      · have hji : j = i := by
          rcases List.mem_cons.mp h with h' | h'
          · exact h'
          · exact absurd h' hm
        subst hji
        rcases releaseAll_cases (Function.update f j ⟨t, (f j).p⟩) t ls j with h1 | ⟨_, h2⟩
        · rw [h1, Function.update_same]
        · rw [h2]

theorem releaseBump_p (f : Nat → Orec) (mx : Nat) (ls : List Nat) (j : Nat) :
    ((releaseBump f mx ls).1 j).p = (f j).p := by
  induction ls generalizing f mx with
  | nil => rfl
  | cons i ls ih =>
      simp only [releaseBump]
      rw [ih]
      by_cases hji : j = i
      · subst hji; simp [Function.update_same]
      · simp [Function.update_noteq hji]

theorem releaseBump_mono (f : Nat → Orec) (mx : Nat) (ls : List Nat) :
    mx ≤ (releaseBump f mx ls).2 := by
  induction ls generalizing f mx with
  | nil => exact le_refl _
  | cons i ls ih =>
      simp only [releaseBump]
      exact le_trans (le_max_left _ _) (ih _ _)

theorem releaseBump_cases (f : Nat → Orec) (mx : Nat) (ls : List Nat) (j : Nat) :
    (releaseBump f mx ls).1 j = f j ∨
      (j ∈ ls ∧ (releaseBump f mx ls).1 j = ⟨(f j).p + 1, (f j).p⟩) := by
  induction ls generalizing f mx with
  | nil => exact Or.inl rfl
  | cons i ls ih =>
      simp only [releaseBump]
      rcases ih (Function.update f i ⟨(f i).p + 1, (f i).p⟩) (max mx ((f i).p + 1)) with
        h1 | ⟨hm, h2⟩
      · by_cases hji : j = i
        · subst hji
          exact Or.inr ⟨List.mem_cons_self _ _, by rw [h1, Function.update_same]⟩
        · exact Or.inl (by rw [h1, Function.update_noteq hji])
      · refine Or.inr ⟨List.mem_cons_of_mem _ hm, ?_⟩
        rw [h2]
        by_cases hji : j = i
        · subst hji; simp [Function.update_same]
        · simp [Function.update_noteq hji]

theorem releaseBump_mem (f : Nat → Orec) (mx : Nat) (ls : List Nat) (j : Nat)
    (h : j ∈ ls) :
    ((releaseBump f mx ls).1 j).v = (f j).p + 1 ∧
      (f j).p + 1 ≤ (releaseBump f mx ls).2 := by
  induction ls generalizing f mx with
  | nil => cases h
  | cons i ls ih =>
      simp only [releaseBump]
      by_cases hm : j ∈ ls
      · have := ih (Function.update f i ⟨(f i).p + 1, (f i).p⟩) (max mx ((f i).p + 1)) hm
        have hp : (Function.update f i ⟨(f i).p + 1, (f i).p⟩ j).p = (f j).p := by
          by_cases hji : j = i
          · subst hji; simp [Function.update_same]
          · simp [Function.update_noteq hji]
        rw [hp] at this
        exact this
      · have hji : j = i := by
          rcases List.mem_cons.mp h with h' | h'
          · exact h'
          · exact absurd h' hm
        subst hji
        constructor
        · rcases releaseBump_cases (Function.update f j ⟨(f j).p + 1, (f j).p⟩)
            (max mx ((f j).p + 1)) ls j with h1 | ⟨_, h2⟩
          · rw [h1, Function.update_same]
          · rw [h2]
            simp [Function.update_same]
        · exact le_trans (le_max_right _ _) (releaseBump_mono _ _ _)

/-! ## C1: the orec/timestamp invariant -/

/-- C1: for every orec in the table, whenever it is unlocked (high bit
clear) its version is at most the global timestamp; the strengthened
invariant `EagerInv` (which adds that locked orecs carry a saved previous
version at most the timestamp, that start_time is at most the timestamp and
that the lock list holds locked orecs) is preserved by OrecEager's begin,
read, write, commit and rollback — in particular by rollback, which
releases each lock to prev + 1 tracking the maximum and bumps the timestamp
when the maximum exceeds it. -/
theorem orecEager_invariant_preserved (st : EagerStep) (s : EagerState) (tx : EagerTx)
    (h : EagerInv s tx) :
    EagerInv (estep st (s, tx)).1 (estep st (s, tx)).2 ∧
      ∀ i, ((estep st (s, tx)).1.orecs i).v < LOCKBIT →
        ((estep st (s, tx)).1.orecs i).v ≤ (estep st (s, tx)).1.timestamp := by
  have main : EagerInv (estep st (s, tx)).1 (estep st (s, tx)).2 := by
    cases st with
    | beginS =>
        exact ⟨h.unlockedLe, h.lockedPrev, le_refl _, h.locksLocked⟩
    | readS a =>
        simp only [estep, readStep]
        split_ifs with h1 h2 h3 h4
        · exact h
        · exact ⟨h.unlockedLe, h.lockedPrev, h.startLe, h.locksLocked⟩
        · exact h
        · exact ⟨h.unlockedLe, h.lockedPrev, le_refl _, h.locksLocked⟩
        · exact h
    | writeS a v m c =>
        simp only [estep, writeStep]
        split_ifs with h1 h2 h3 h4 h5
        · -- CAS success: acquire the orec
          refine ⟨?_, ?_, h.startLe, ?_⟩
          · intro j hj
            dsimp only at hj ⊢
            by_cases hji : j = orecOf a
            · subst hji
              simp only [Function.update_same] at hj
              have hm : LOCKBIT ≤ myLock tx := Nat.le_add_right _ _
              omega
            · rw [Function.update_noteq hji] at hj ⊢
              exact h.unlockedLe j hj
          · intro j hj
            dsimp only at hj ⊢
            by_cases hji : j = orecOf a
            · subst hji
              rw [Function.update_same]
              exact le_trans h1 h.startLe
            · rw [Function.update_noteq hji] at hj ⊢
              exact h.lockedPrev j hj
          · intro j hj
            dsimp only at hj ⊢
            rcases List.mem_append.mp hj with hj' | hj'
            · by_cases hji : j = orecOf a
              · subst hji
                rw [Function.update_same]
                exact Nat.le_add_right _ _
              · rw [Function.update_noteq hji]
                exact h.locksLocked j hj'
            · have hji : j = orecOf a := List.mem_singleton.mp hj'
              subst hji
              rw [Function.update_same]
              exact Nat.le_add_right _ _
        · exact h
        · exact ⟨h.unlockedLe, h.lockedPrev, h.startLe, h.locksLocked⟩
        · exact h
        · exact ⟨h.unlockedLe, h.lockedPrev, le_refl _, h.locksLocked⟩
        · exact h
    | commitS =>
        simp only [estep, commitStep]
        split_ifs with h1 h2
        · exact ⟨h.unlockedLe, h.lockedPrev, h.startLe, h.locksLocked⟩
        · exact ⟨fun j hj => le_trans (h.unlockedLe j hj) (Nat.le_succ _),
                 fun j hj => le_trans (h.lockedPrev j hj) (Nat.le_succ _),
                 le_trans h.startLe (Nat.le_succ _),
                 h.locksLocked⟩
        · refine ⟨?_, ?_, le_trans h.startLe (Nat.le_succ _), ?_⟩
          · intro j hj
            dsimp only at hj ⊢
            rcases releaseAll_cases s.orecs (s.timestamp + 1) tx.locks j with he | ⟨_, he⟩
            · rw [he] at hj ⊢
              exact le_trans (h.unlockedLe j hj) (Nat.le_succ _)
            · rw [he]
          · intro j hj
            dsimp only at hj ⊢
            rcases releaseAll_cases s.orecs (s.timestamp + 1) tx.locks j with he | ⟨hm, he⟩
            · rw [he] at hj ⊢
              exact le_trans (h.lockedPrev j hj) (Nat.le_succ _)
            · rw [he]
              exact le_trans (h.lockedPrev j (h.locksLocked j hm)) (Nat.le_succ _)
          · intro j hj
            cases hj
    | rollbackS =>
        simp only [estep, rollbackStep]
        have hts : s.timestamp ≤
            (if s.timestamp < (releaseBump s.orecs 0 tx.locks).2 then s.timestamp + 1
             else s.timestamp) := by
          split_ifs
          · exact Nat.le_succ _
          · exact le_refl _
        refine ⟨?_, ?_, le_trans h.startLe hts, ?_⟩
        · intro j hj
          dsimp only at hj ⊢
          rcases releaseBump_cases s.orecs 0 tx.locks j with he | ⟨hm, he⟩
          · rw [he] at hj ⊢
            exact le_trans (h.unlockedLe j hj) hts
          · rw [he]
            dsimp only
            have hp : (s.orecs j).p ≤ s.timestamp :=
              h.lockedPrev j (h.locksLocked j hm)
            have hmx : (s.orecs j).p + 1 ≤ (releaseBump s.orecs 0 tx.locks).2 :=
              (releaseBump_mem s.orecs 0 tx.locks j hm).2
            split_ifs with hb
            · omega
            · omega
        · intro j hj
          dsimp only at hj ⊢
          rcases releaseBump_cases s.orecs 0 tx.locks j with he | ⟨hm, he⟩
          · rw [he] at hj ⊢
            exact le_trans (h.lockedPrev j hj) hts
          · rw [he]
            exact le_trans (h.lockedPrev j (h.locksLocked j hm)) hts
        · intro j hj
          cases hj
  exact ⟨main, main.unlockedLe⟩

/-- C1 witness: the strengthened invariant holds of the initial state, and
rollback preserves it there. -/
theorem orecEager_invariant_preserved_witness :
    EagerInv exS0 exT0 ∧
      (EagerInv (estep .rollbackS (exS0, exT0)).1 (estep .rollbackS (exS0, exT0)).2 ∧
        ∀ i, ((estep .rollbackS (exS0, exT0)).1.orecs i).v < LOCKBIT →
          ((estep .rollbackS (exS0, exT0)).1.orecs i).v ≤
            (estep .rollbackS (exS0, exT0)).1.timestamp) := by
  have hinv : EagerInv exS0 exT0 :=
    ⟨fun _ _ => le_refl _,
     fun i hi => by
       simp only [exS0] at hi
       exact absurd hi (by decide),
     le_refl _,
     fun i hi => absurd hi (List.not_mem_nil _)⟩
  exact ⟨hinv, orecEager_invariant_preserved .rollbackS exS0 exT0 hinv⟩

/-! ## C2: the OrecEager write barrier -/

/-- C2: the four cases of OrecEager `Write::operator()` on one loop
iteration: an orec at most start_time is CASed to the thread's lock word —
on success the old value goes to the prev field, the orec is appended to the
lock list, an (address, prior value, mask) entry is appended to the undo log
and the masked in-place write is performed, while a failed CAS aborts; an
orec equal to the thread's own lock word only appends an undo entry and
writes; an orec locked by another thread aborts; an unlocked orec newer than
start_time re-samples the timestamp, validates the read log and extends
start_time for a retry (abort if that validation fails). -/
theorem orecEager_write_cases (s : EagerState) (tx : EagerTx) (a : Nat) (v : Word)
    (m : ByteMask) (casOk : Bool) (hst : tx.start_time < LOCKBIT) :
    ((s.orecs (orecOf a)).v ≤ tx.start_time → casOk = true →
        writeStep s tx a v m casOk =
          ({ s with orecs := Function.update s.orecs (orecOf a)
                      ⟨myLock tx, (s.orecs (orecOf a)).v⟩,
                    mem := Function.update s.mem a (maskedWrite (s.mem a) v m) },
           { tx with locks := tx.locks ++ [orecOf a],
                     undo_log := tx.undo_log ++ [(a, s.mem a, m)] },
           .acquired)) ∧
    ((s.orecs (orecOf a)).v ≤ tx.start_time → casOk = false →
        writeStep s tx a v m casOk = (s, tx, .abortW)) ∧
    ((s.orecs (orecOf a)).v = myLock tx →
        writeStep s tx a v m casOk =
          ({ s with mem := Function.update s.mem a (maskedWrite (s.mem a) v m) },
           { tx with undo_log := tx.undo_log ++ [(a, s.mem a, m)] },
           .owned)) ∧
    (LOCKBIT ≤ (s.orecs (orecOf a)).v → (s.orecs (orecOf a)).v ≠ myLock tx →
        writeStep s tx a v m casOk = (s, tx, .abortW)) ∧
    ((s.orecs (orecOf a)).v < LOCKBIT → tx.start_time < (s.orecs (orecOf a)).v →
        writeStep s tx a v m casOk =
          (if validateOk s tx then (s, { tx with start_time := s.timestamp }, .extendedW)
           else (s, tx, .abortW))) := by
  refine ⟨?_, ?_, ?_, ?_, ?_⟩
  · intro h1 h2
    subst h2
    simp only [writeStep]
    rw [if_pos h1]
    simp
  · intro h1 h2
    subst h2
    simp only [writeStep]
    rw [if_pos h1]
    simp
  · intro h1
    have hnle : ¬((s.orecs (orecOf a)).v ≤ tx.start_time) := by
      rw [h1]
      have hl : LOCKBIT ≤ myLock tx := Nat.le_add_right _ _
      omega
    simp only [writeStep]
    rw [if_neg hnle, if_pos h1]
  · intro h1 h2
    have hnle : ¬((s.orecs (orecOf a)).v ≤ tx.start_time) := by omega
    simp only [writeStep]
    rw [if_neg hnle, if_neg h2, if_pos h1]
  · intro h1 h2
    have hnle : ¬((s.orecs (orecOf a)).v ≤ tx.start_time) := by omega
    have hne : (s.orecs (orecOf a)).v ≠ myLock tx := by
      have hl : LOCKBIT ≤ myLock tx := Nat.le_add_right _ _
      omega
    have hnl : ¬(LOCKBIT ≤ (s.orecs (orecOf a)).v) := by omega
    simp only [writeStep]
    rw [if_neg hnle, if_neg hne, if_neg hnl]

/-- C2 witness: in the fresh state, a write with a winning CAS acquires the
orec, saves the previous version, appends the lock and the undo entry, and
writes in place. -/
theorem orecEager_write_cases_witness :
    exT0.start_time < LOCKBIT ∧
      writeStep exS0 exT0 0 exWord fullMask true =
        ({ exS0 with orecs := Function.update exS0.orecs (orecOf 0)
                       ⟨myLock exT0, (exS0.orecs (orecOf 0)).v⟩,
                     mem := Function.update exS0.mem 0
                       (maskedWrite (exS0.mem 0) exWord fullMask) },
         { exT0 with locks := exT0.locks ++ [orecOf 0],
                     undo_log := exT0.undo_log ++ [(0, exS0.mem 0, fullMask)] },
         .acquired) :=
  ⟨by decide,
   (orecEager_write_cases exS0 exT0 0 exWord fullMask true (by decide)).1
     (by decide) rfl⟩

/-! ## C3: the OrecEager commit -/

/-- C3 counterexample: a commit configuration in which a logged orec is
locked by another thread — so the claim's unconditional validation would
abort — but `end_time = start_time + 1` makes `alg_tm_end` skip validation
and commit read-write. -/
theorem orecEager_commit_skips_validation :
    (commitStep c3S c3T).2.2 = CommitOutcome.rwCommit ∧
    validateOk { c3S with timestamp := 6 } c3T = false ∧
    1 ∈ c3T.r_orecs ∧
    ¬((c3S.orecs 1).v ≤ c3T.start_time ∨ (c3S.orecs 1).v = myLock c3T) := by
  refine ⟨by decide, by decide, by decide, by decide⟩

/-- C3 (amended): OrecEager commit with no locks held takes the read-only
fast path and returns; otherwise it increments the global timestamp to
obtain end_time, validates the read log (each logged orec must be at most
start_time or self-owned, else abort) unless end_time equals start_time + 1,
and then releases every locked orec by writing end_time into it. -/
theorem orecEager_commit_spec (s : EagerState) (tx : EagerTx) :
    (tx.locks = [] →
        commitStep s tx =
          (s, { tx with r_orecs := [], commits_ro := tx.commits_ro + 1 },
           .roCommit)) ∧
    (tx.locks ≠ [] →
        (commitStep s tx).1.timestamp = s.timestamp + 1 ∧
        (s.timestamp + 1 ≠ tx.start_time + 1 → validateOk s tx = false →
            (commitStep s tx).2.2 = .abortC) ∧
        ((s.timestamp + 1 = tx.start_time + 1 ∨ validateOk s tx = true) →
            (commitStep s tx).2.2 = .rwCommit ∧
            (∀ i ∈ tx.locks, ((commitStep s tx).1.orecs i).v = s.timestamp + 1) ∧
            (commitStep s tx).2.1.locks = [])) := by
  have hv : validateOk { s with timestamp := s.timestamp + 1 } tx = validateOk s tx := rfl
  constructor
  · intro h0
    have he : tx.locks.isEmpty := by simp [List.isEmpty_iff, h0]
    simp only [commitStep, if_pos he]
  · intro h0
    have hne : ¬tx.locks.isEmpty := by
      simp [List.isEmpty_iff, h0]
    have hcs : commitStep s tx =
        (if s.timestamp + 1 ≠ tx.start_time + 1 ∧
             validateOk { s with timestamp := s.timestamp + 1 } tx = false then
           ({ s with timestamp := s.timestamp + 1 }, tx, .abortC)
         else
           ({ s with timestamp := s.timestamp + 1,
                     orecs := releaseAll { s with timestamp := s.timestamp + 1 }.orecs
                       (s.timestamp + 1) tx.locks },
            { tx with locks := [], undo_log := [], r_orecs := [],
                      commits_rw := tx.commits_rw + 1 },
            .rwCommit)) := by
      simp only [commitStep, if_neg hne]
    refine ⟨?_, ?_, ?_⟩
    · rw [hcs]
      split_ifs <;> rfl
    · intro h1 h2
      rw [hcs, if_pos ⟨h1, by rw [hv]; exact h2⟩]
    · intro h1
      have hc : ¬(s.timestamp + 1 ≠ tx.start_time + 1 ∧
          validateOk { s with timestamp := s.timestamp + 1 } tx = false) := by
        rw [hv]
        rcases h1 with h1 | h1
        · intro hk; exact hk.1 h1
        · intro hk; rw [h1] at hk; exact Bool.noConfusion hk.2
      rw [hcs, if_neg hc]
      refine ⟨rfl, ?_, rfl⟩
      intro i hi
      exact releaseAll_mem _ _ _ _ hi

/-- C3 witness: a writer whose read log passes validation commits: the
timestamp is incremented, its lock is released at end_time, and the lock
list is cleared. -/
theorem orecEager_commit_spec_witness :
    c3T.locks ≠ [] ∧
      ((commitStep c3S c3T).1.timestamp = c3S.timestamp + 1 ∧
        ((commitStep c3S c3T).2.2 = .rwCommit ∧
          (∀ i ∈ c3T.locks, ((commitStep c3S c3T).1.orecs i).v = c3S.timestamp + 1) ∧
          (commitStep c3S c3T).2.1.locks = [])) := by
  have h := (orecEager_commit_spec c3S c3T).2 (by decide)
  exact ⟨by decide, h.1, h.2.2 (Or.inl (by decide))⟩

/-! ## Helper lemmas about the ordered writeback -/

theorem ctokenWriteback_events (ord : Nat) (s : CTokState) (ws : List (Nat × Word)) :
    (ctokenWriteback ord s ws).events = s.events ++ wbEvents ord ws := by
  induction ws generalizing s with
  | nil => simp [ctokenWriteback, wbEvents]
  | cons e rest ih =>
      simp only [ctokenWriteback, wbEvents, ih, storeMem, markOrec]
      simp

theorem ctokenWriteback_lastComplete (ord : Nat) (s : CTokState) (ws : List (Nat × Word)) :
    (ctokenWriteback ord s ws).lastComplete = s.lastComplete := by
  induction ws generalizing s with
  | nil => rfl
  | cons e rest ih =>
      simp only [ctokenWriteback, ih, storeMem, markOrec]

theorem ctokenWriteback_orec_or (ord : Nat) (s : CTokState) (ws : List (Nat × Word))
    (j : Nat) :
    (ctokenWriteback ord s ws).orecs j = s.orecs j ∨
      (ctokenWriteback ord s ws).orecs j = ord := by
  induction ws generalizing s with
  | nil => exact Or.inl rfl
  | cons e rest ih =>
      rcases ih (storeMem (markOrec s (orecOf e.1) ord) e.1 e.2) with h1 | h1
      · simp only [storeMem, markOrec] at h1
        by_cases hj : j = orecOf e.1
        · subst hj
          rw [Function.update_same] at h1
          exact Or.inr h1
        · rw [Function.update_noteq hj] at h1
          exact Or.inl h1
      · exact Or.inr h1

theorem ctokenWriteback_orec_mem (ord : Nat) (s : CTokState) (ws : List (Nat × Word))
    (e : Nat × Word) (he : e ∈ ws) :
    (ctokenWriteback ord s ws).orecs (orecOf e.1) = ord := by
  induction ws generalizing s with
  | nil => cases he
  | cons f rest ih =>
      rcases List.mem_cons.mp he with hef | hef
      · subst hef
        rcases ctokenWriteback_orec_or ord
            (storeMem (markOrec s (orecOf e.1) ord) e.1 e.2) rest (orecOf e.1) with h1 | h1
        · simp only [ctokenWriteback]
          rw [h1]
          simp [storeMem, markOrec]
        · simp only [ctokenWriteback]
          rw [h1]
      · exact ih _ hef

theorem ctokenWriteback_mem_untouched (ord : Nat) (s : CTokState)
    (ws : List (Nat × Word)) (a : Nat) (ha : ∀ e ∈ ws, e.1 ≠ a) :
    (ctokenWriteback ord s ws).mem a = s.mem a := by
  induction ws generalizing s with
  | nil => rfl
  | cons f rest ih =>
      simp only [ctokenWriteback]
      rw [ih _ fun e he => ha e (List.mem_cons_of_mem _ he)]
      simp only [storeMem, markOrec]
      rw [Function.update_noteq (Ne.symm (ha f (List.mem_cons_self _ _)))]

theorem ctokenWriteback_mem_mem (ord : Nat) (s : CTokState) (ws : List (Nat × Word))
    (hnd : (ws.map Prod.fst).Nodup) (e : Nat × Word) (he : e ∈ ws) :
    (ctokenWriteback ord s ws).mem e.1 = e.2 := by
  induction ws generalizing s with
  | nil => cases he
  | cons f rest ih =>
      have hnd' := (List.nodup_cons.mp hnd).2
      rcases List.mem_cons.mp he with hef | hef
      · subst hef
        have hnf : ∀ g ∈ rest, g.1 ≠ e.1 := by
          intro g hg hgeq
          exact (List.nodup_cons.mp hnd).1 (hgeq ▸ List.mem_map_of_mem Prod.fst hg)
        simp only [ctokenWriteback]
        rw [ctokenWriteback_mem_untouched ord _ rest e.1 hnf]
        simp [storeMem, markOrec]
      · exact ih _ hnd' hef

/-! ## C4: ordered-commit of the CToken family -/

/-- C4 counterexample: CTokenTurbo's `commit_rw` run at its turn (order 2,
last_complete 1, oldest in the cohort) commits read-write, publishes order 2
into last_complete, but leaves the descriptor's order field at 2 instead of
resetting it to -1. -/
theorem ctokenTurbo_commit_keeps_order :
    (ctokenTurboCommitRW c4S c4TT).2.2 = CTokOutcome.rwC ∧
    (ctokenTurboCommitRW c4S c4TT).2.1.order = 2 ∧
    (ctokenTurboCommitRW c4S c4TT).1.lastComplete = 2 ∧
    (2 : Int) ≠ -1 := by
  refine ⟨by decide, by decide, by decide, by decide⟩

/-- C4 (amended): a CToken-family writer (a transaction with order ≠ -1) at
the exit of the commit wait loop (last_complete = order - 1): it validates
the read log against ts_cache unless it is first in the cohort (ts_cache
already equals last_complete = order - 1), aborting when a logged orec is
newer than ts_cache; on the commit path it marks the orec of every
write-set location with the order before writing the value back (the event
trace interleaves mark-then-store per entry) and stores its order into the
last-completed counter; CToken's tm_end then resets its order field to -1,
while CTokenTurbo's commit_rw leaves the order field unchanged. -/
theorem ctoken_commit_writer (s : CTokState) (tx : CTokTx) (tt : TurboTx)
    (hw : tx.order ≠ -1)
    (hspin : (s.lastComplete : Int) = tx.order - 1)
    (hcache : tx.ts_cache ≤ s.lastComplete)
    (hnd : (tx.writes.map Prod.fst).Nodup)
    (hspint : (s.lastComplete : Int) = tt.order - 1)
    (hcachet : tt.ts_cache ≤ s.lastComplete)
    (hndt : (tt.writes.map Prod.fst).Nodup) :
    (tx.ts_cache ≠ s.lastComplete → ctokenValidateOk s tx = false →
        ctokenCommit s tx = (s, tx, .abortCk)) ∧
    (tx.ts_cache = s.lastComplete ∨ ctokenValidateOk s tx = true →
        (ctokenCommit s tx).2.2 = .rwC ∧
        (ctokenCommit s tx).1.lastComplete = tx.order.toNat ∧
        (ctokenCommit s tx).2.1.order = -1 ∧
        (∀ e ∈ tx.writes,
            (ctokenCommit s tx).1.orecs (orecOf e.1) = tx.order.toNat ∧
            (ctokenCommit s tx).1.mem e.1 = e.2) ∧
        (ctokenCommit s tx).1.events = s.events ++ wbEvents tx.order.toNat tx.writes) ∧
    ((tt.ts_cache : Int) ≠ tt.order - 1 → turboValidateOk s tt = false →
        ctokenTurboCommitRW s tt = (s, tt, .abortCk)) ∧
    ((tt.ts_cache : Int) = tt.order - 1 ∨ turboValidateOk s tt = true →
        (ctokenTurboCommitRW s tt).2.2 = .rwC ∧
        (ctokenTurboCommitRW s tt).1.lastComplete = tt.order.toNat ∧
        (ctokenTurboCommitRW s tt).2.1.order = tt.order ∧
        (∀ e ∈ tt.writes,
            (ctokenTurboCommitRW s tt).1.orecs (orecOf e.1) = tt.order.toNat ∧
            (ctokenTurboCommitRW s tt).1.mem e.1 = e.2) ∧
        (ctokenTurboCommitRW s tt).1.events =
          s.events ++ wbEvents tt.order.toNat tt.writes) := by
  refine ⟨?_, ?_, ?_, ?_⟩
  · intro h1 h2
    have hlt : tx.ts_cache < s.lastComplete := lt_of_le_of_ne hcache h1
    simp only [ctokenCommit, if_neg hw, if_pos hlt, h2]
    simp
  · intro h1
    have hred : (ctokenCommit s tx).1 = ctokenFinish s tx.order.toNat tx.writes ∧
        (ctokenCommit s tx).2.1.order = -1 ∧ (ctokenCommit s tx).2.2 = .rwC := by
      by_cases hts : tx.ts_cache = s.lastComplete
      · have hnlt : ¬tx.ts_cache < s.lastComplete := by omega
        simp only [ctokenCommit, if_neg hw, if_neg hnlt]
        refine ⟨?_, ?_, ?_⟩ <;> trivial
      · have hv : ctokenValidateOk s tx = true := by
          rcases h1 with h1 | h1
          · exact absurd h1 hts
          · exact h1
        have hlt : tx.ts_cache < s.lastComplete := lt_of_le_of_ne hcache hts
        simp only [ctokenCommit, if_neg hw, if_pos hlt, hv]
        refine ⟨?_, ?_, ?_⟩ <;> trivial
    refine ⟨hred.2.2, ?_, hred.2.1, ?_, ?_⟩
    · rw [hred.1]; rfl
    · intro e he
      rw [hred.1]
      exact ⟨ctokenWriteback_orec_mem _ _ _ e he,
             ctokenWriteback_mem_mem _ _ _ hnd e he⟩
    · rw [hred.1]
      exact ctokenWriteback_events _ _ _
  · intro h1 h2
    simp only [ctokenTurboCommitRW, if_pos h1, h2]
    simp
  · intro h1
    have hred : (ctokenTurboCommitRW s tt).1 = ctokenFinish s tt.order.toNat tt.writes ∧
        (ctokenTurboCommitRW s tt).2.1.order = tt.order ∧
        (ctokenTurboCommitRW s tt).2.2 = .rwC := by
      by_cases hts : (tt.ts_cache : Int) = tt.order - 1
      · have hnne : ¬((tt.ts_cache : Int) ≠ tt.order - 1) := by
          exact not_not_intro hts
        simp only [ctokenTurboCommitRW, if_neg hnne]
        refine ⟨?_, ?_, ?_⟩ <;> trivial
      · have hv : turboValidateOk s tt = true := by
          rcases h1 with h1 | h1
          · exact absurd h1 hts
          · exact h1
        simp only [ctokenTurboCommitRW, if_pos hts, hv]
        refine ⟨?_, ?_, ?_⟩ <;> trivial
    refine ⟨hred.2.2, ?_, hred.2.1, ?_, ?_⟩
    · rw [hred.1]; rfl
    · intro e he
      rw [hred.1]
      exact ⟨ctokenWriteback_orec_mem _ _ _ e he,
             ctokenWriteback_mem_mem _ _ _ hndt e he⟩
    · rw [hred.1]
      exact ctokenWriteback_events _ _ _

/-- C4 witness: order 2, last_complete 1, first in the cohort: both commits
publish last_complete = 2; CToken resets its order to -1, CTokenTurbo
keeps order 2; the event trace marks orec(8) before storing address 8. -/
theorem ctoken_commit_writer_witness :
    (2 : Int) ≠ -1 ∧
    (ctokenCommit c4S c4T).2.1.order = -1 ∧
    (ctokenTurboCommitRW c4S c4TT).2.1.order = c4TT.order ∧
    (ctokenCommit c4S c4T).1.events = c4S.events ++ wbEvents (2 : Int).toNat c4T.writes := by
  have h := ctoken_commit_writer c4S c4T c4TT (by decide) (by decide) (by decide)
    (by decide) (by decide) (by decide) (by decide)
  have h2 := h.2.1 (Or.inl (by decide))
  have h4 := h.2.2.2 (Or.inl (by decide))
  exact ⟨by decide, h2.2.2.1, h4.2.2.1, h2.2.2.2.2⟩

/-! ## C5: read-after-write with byte-mask merging -/

theorem wsFind_insert (ws : List WSEntry) (a : Nat) (v : Word) (m : ByteMask) :
    ∃ e0, wsFind (wsInsert ws a v m) a = some e0 ∧
      (∀ i, m i = true → e0.val i = v i ∧ e0.mask i = true) ∧
      (∀ i, m i = false →
        (∀ e ∈ ws, e.addr = a → e.mask i = false) → e0.mask i = false) := by
  induction ws with
  | nil =>
      refine ⟨⟨a, v, m⟩, by simp [wsFind, wsInsert], ?_, ?_⟩
      · intro i hi
        exact ⟨rfl, hi⟩
      · intro i hi _
        exact hi
  | cons e rest ih =>
      by_cases hea : e.addr = a
      · refine ⟨⟨a, maskedWrite e.val v m, fun i => m i || e.mask i⟩, ?_, ?_, ?_⟩
        · simp [wsFind, wsInsert, hea]
        · intro i hi
          exact ⟨by simp [maskedWrite, hi], by simp [hi]⟩
        · intro i hi hall
          simp [hi, hall e (List.mem_cons_self _ _) hea]
      · obtain ⟨e0, hf, hw, hm⟩ := ih
        refine ⟨e0, ?_, hw, ?_⟩
        · simp only [wsInsert, if_neg hea, wsFind, List.find?]
          rw [show (decide (e.addr = a)) = false by simp [hea]]
          exact hf
        · intro i hi hall
          exact hm i hi fun g hg => hall g (List.mem_cons_of_mem _ hg)

/-- C5: a transactional read that follows a transactional write to the same
address in the same transaction: the bytes covered by the write's mask come
back as the written value, and bytes covered by no write-set entry for that
address come from memory — the write set supplies the written bytes and
memory supplies the rest. -/
theorem raw_read_after_write (ws : List WSEntry) (mem : Nat → Word) (a : Nat)
    (v : Word) (m : ByteMask) :
    (∀ i, m i = true → readRW (wsInsert ws a v m) mem a i = v i) ∧
    (∀ i, m i = false → (∀ e ∈ ws, e.addr = a → e.mask i = false) →
        readRW (wsInsert ws a v m) mem a i = mem a i) := by
  obtain ⟨e0, hf, hw, hm⟩ := wsFind_insert ws a v m
  constructor
  · intro i hi
    simp only [readRW, hf]
    rcases hw i hi with ⟨hv, hmk⟩
    rw [hmk, if_pos rfl]
    exact hv
  · intro i hi hall
    simp only [readRW, hf]
    rw [hm i hi hall]
    simp

/-- C5 witness: writing a full-mask word and reading it back returns the
written byte. -/
theorem raw_read_after_write_witness :
    fullMask 0 = true ∧
      readRW (wsInsert [] 0 exWord fullMask) (fun _ => zeroWord) 0 0 = exWord 0 :=
  ⟨rfl, (raw_read_after_write [] (fun _ => zeroWord) 0 exWord fullMask).1 0 rfl⟩

/-! ## C6: cohort aborts inside commit still publish completion -/

/-- C6: a cohort transaction that aborts inside commit after obtaining an
order still publishes completion before retrying: Cohorts' TxAbortWrapper
increments the committed count and stores the order into last_complete, so
that when the aborter was the last pending committer the begin gate
(cpending == committed) opens; CohortsLNQX's CommitRW abort path marks the
own turn node DONE and, when this thread's node is the queue tail, clears
the seal and resets the commit queue. -/
theorem cohorts_abort_publishes (s : CohState) (ord : Nat) (t : LNQXState) (me : Nat) :
    (txAbortWrapper s ord).lastComplete = ord ∧
    (txAbortWrapper s ord).committed = s.committed + 1 ∧
    (s.cpending = s.committed + 1 → cohortGateOpen (txAbortWrapper s ord)) ∧
    (lnqxCommitAbort t me).turn me = COHORTS_DONE ∧
    (t.q = some me →
        (lnqxCommitAbort t me).sealed = 0 ∧ (lnqxCommitAbort t me).q = none) := by
  refine ⟨rfl, rfl, ?_, ?_, ?_⟩
  · intro h
    exact h
  · simp only [lnqxCommitAbort]
    split_ifs <;> simp [Function.update_same]
  · intro hq
    have hq1 : ({ t with turn := Function.update t.turn me COHORTS_DONE } : LNQXState).q
        = some me := hq
    simp only [lnqxCommitAbort, if_pos hq1]
    refine ⟨?_, ?_⟩ <;> trivial

/-- C6 witness: with cpending 3 and committed 2, the last aborter opens the
gate; with the queue tail pointing at thread 2, its abort clears the seal
and the queue. -/
theorem cohorts_abort_publishes_witness :
    (txAbortWrapper c6S 5).lastComplete = 5 ∧
    cohortGateOpen (txAbortWrapper c6S 5) ∧
    (lnqxCommitAbort c6Q 2).sealed = 0 ∧ (lnqxCommitAbort c6Q 2).q = none := by
  have h := cohorts_abort_publishes c6S 5 c6Q 2
  exact ⟨h.1, h.2.2.1 (by decide), (h.2.2.2.2 (by decide)).1, (h.2.2.2.2 (by decide)).2⟩

/-! ## C10: rollback of a turbo-mode CTokenTurbo transaction is fatal -/

/-- C10: CTokenTurbo's rollback handler is fatal exactly when the thread's
read pointer is the turbo variant: a turbo-mode transaction reaches
UNRECOVERABLE (terminating the process) and none of the rollback work (log
resets, retry) is performed, so it is never transparently retried. -/
theorem ctokenTurbo_rollback_turbo_fatal (tx : TurboTx) :
    ((ctokenTurboRollback tx).2 = .fatal ↔ tx.mode = .turbo) ∧
    ((ctokenTurboRollback tx).2 = .fatal →
        (ctokenTurboRollback tx).1.writes = tx.writes ∧
        (ctokenTurboRollback tx).1.r_orecs = tx.r_orecs ∧
        (ctokenTurboRollback tx).1.order = tx.order) := by
  by_cases h : tx.mode = .turbo
  · refine ⟨⟨fun _ => h, fun _ => ?_⟩, fun _ => ?_⟩
    · simp [ctokenTurboRollback, h]
    · refine ⟨?_, ?_, ?_⟩ <;> simp [ctokenTurboRollback, h]
  · refine ⟨⟨fun hf => ?_, fun hm => absurd hm h⟩, fun hf => ?_⟩
    · exfalso
      simp [ctokenTurboRollback, h] at hf
    · exfalso
      simp [ctokenTurboRollback, h] at hf

/-- C10 witness: the concrete turbo-mode descriptor is fatal to roll back. -/
theorem ctokenTurbo_rollback_turbo_fatal_witness :
    c10T.mode = TMode.turbo ∧ (ctokenTurboRollback c10T).2 = RollbackRes.fatal :=
  ⟨rfl, (ctokenTurbo_rollback_turbo_fatal c10T).1.mpr rfl⟩

/-! ## C7: the ByteEager read barriers and their timeout -/

theorem spinOwnerFrom_stall (obs : Nat → Nat) (b idx tries : Nat)
    (h : ∀ k, obs k ≠ 0) : spinOwnerFrom obs b idx tries = none := by
  induction b generalizing idx tries with
  | zero => rfl
  | succ b ih =>
      simp only [spinOwnerFrom, if_neg (h idx)]
      exact ih _ _

theorem spinOwnerFrom_none_all (obs : Nat → Nat) (b idx tries : Nat)
    (h : spinOwnerFrom obs b idx tries = none) :
    ∀ j, j < b → obs (idx + j) ≠ 0 := by
  induction b generalizing idx tries with
  | zero => intro j hj; omega
  | succ b ih =>
      intro j hj
      by_cases h0 : obs idx = 0
      · simp [spinOwnerFrom, h0] at h
      · cases j with
        | zero => simpa using h0
        | succ j =>
            have hr : spinOwnerFrom obs b (idx + 1) (tries + 1) = none := by
              simpa [spinOwnerFrom, h0] using h
            have := ih (idx + 1) (tries + 1) hr j (by omega)
            have heq : idx + 1 + j = idx + (j + 1) := by omega
            rw [heq] at this
            exact this

/-- C7 counterexample: with the writer field observed as thread 3 at every
load, a writing transaction that already owns the write lock returns the
memory word with no reader-byte action at all, while the protocol the claim
describes (the read_ro barrier on the same observations) sets the reader
byte, clears it, and aborts on timeout. -/
theorem byteEager_read_rw_self_owner :
    byteEagerReadRW 3 false obs3 exWord 40 = (.ret exWord, []) ∧
    byteEagerReadRO false obs3 exWord 40 = (.abortTimeout, [.setByte, .clearByte]) ∧
    obs3 0 = 3 := by
  refine ⟨rfl, rfl, rfl⟩

/-- C7 (amended): the ByteEager read barriers: read_ro with the reader byte
already set returns the memory word immediately; otherwise it sets the
reader byte and checks the writer field — 0 means return the memory word
with the byte left set; a present writer makes it clear the byte and wait,
and a writer observed present on every load aborts the transaction after
exactly READ_TIMEOUT + 1 waiting loads (never earlier: an abort implies
READ_TIMEOUT + 1 consecutive nonzero owner observations); read_rw
additionally returns the in-place memory word immediately when this thread
already owns the write lock. -/
theorem byteEager_read_timeout (obs : Nat → Nat) (mem : Word) (fuel me : Nat)
    (ar : Bool) :
    byteEagerReadRO true obs mem fuel = (.ret mem, []) ∧
    (obs 0 = 0 → 1 ≤ fuel →
        byteEagerReadRO false obs mem fuel = (.ret mem, [.setByte])) ∧
    ((∀ k, obs k ≠ 0) → 1 ≤ fuel →
        byteEagerReadRO false obs mem fuel = (.abortTimeout, [.setByte, .clearByte])) ∧
    (∀ idx tries, spinOwner obs idx tries = none →
        ∀ j, j < READ_TIMEOUT + 1 - tries → obs (idx + j) ≠ 0) ∧
    (obs 0 = me → byteEagerReadRW me ar obs mem fuel = (.ret mem, [])) := by
  refine ⟨?_, ?_, ?_, ?_, ?_⟩
  · simp [byteEagerReadRO]
  · intro h1 h2
    obtain ⟨f, rfl⟩ : ∃ f, fuel = f + 1 := ⟨fuel - 1, by omega⟩
    simp [byteEagerReadRO, beReadLoop, h1]
  · intro h1 h2
    obtain ⟨f, rfl⟩ : ∃ f, fuel = f + 1 := ⟨fuel - 1, by omega⟩
    simp only [byteEagerReadRO, Bool.false_eq_true, if_false, beReadLoop,
      if_neg (h1 0), spinOwner, spinOwnerFrom_stall obs _ _ _ h1]
  · intro idx tries h
    exact spinOwnerFrom_none_all obs _ idx tries h
  · intro h1
    simp [byteEagerReadRW, h1]

/-- C7 witness: a permanently present writer makes the read barrier abort;
an already-held reader byte returns immediately. -/
theorem byteEager_read_timeout_witness :
    obs3 0 ≠ 0 ∧
    byteEagerReadRO false obs3 exWord 1 = (.abortTimeout, [.setByte, .clearByte]) ∧
    byteEagerReadRO true obs3 exWord 1 = (.ret exWord, []) := by
  have h := byteEager_read_timeout obs3 exWord 1 3 false
  exact ⟨by decide, h.2.2.1 (fun k => by simp [obs3]) (by decide), h.1⟩

/-! ## C8: the bytelock protocol -/

theorem blRun_owner_stable (tr : List BLAct) (s s' : BLState)
    (hrun : blRun s tr = some s') (hw : s.owner ≠ 0)
    (hnr : BLAct.releaseOwner s.owner ∉ tr) :
    s'.owner = s.owner ∧ ∀ t, BLAct.casOwner t ∉ tr := by
  induction tr generalizing s with
  | nil =>
      have hs : s = s' := by
        simpa [blRun] using hrun
      subst hs
      exact ⟨rfl, fun t => List.not_mem_nil _⟩
  | cons a tr ih =>
      cases a with
      | setB t =>
          have hrun' : blRun { s with reader := Function.update s.reader t 1 } tr = some s' := by
            simpa [blRun, blStep] using hrun
          have ht := ih _ hrun' hw fun hm => hnr (List.mem_cons_of_mem _ hm)
          exact ⟨ht.1, fun t' hmem => by
            rcases List.mem_cons.mp hmem with hmem | hmem
            · cases hmem
            · exact ht.2 t' hmem⟩
      | clearB t =>
          have hrun' : blRun { s with reader := Function.update s.reader t 0 } tr = some s' := by
            simpa [blRun, blStep] using hrun
          have ht := ih _ hrun' hw fun hm => hnr (List.mem_cons_of_mem _ hm)
          exact ⟨ht.1, fun t' hmem => by
            rcases List.mem_cons.mp hmem with hmem | hmem
            · cases hmem
            · exact ht.2 t' hmem⟩
      | casOwner t =>
          exfalso
          have hg : ¬(s.owner = 0 ∧ t ≠ 0) := fun hk => hw hk.1
          simp [blRun, blStep, if_neg hg] at hrun
      | releaseOwner t =>
          exfalso
          by_cases hts : s.owner = t
          · exact hnr (hts ▸ List.mem_cons_self _ _)
          · simp [blRun, blStep, if_neg hts] at hrun

theorem beReadLoop_ret_sees_zero (obs : Nat → Nat) (mem : Word)
    (fuel idx tries : Nat)
    (h : (beReadLoop obs mem fuel idx tries).1 = .ret mem) : ∃ k, obs k = 0 := by
  induction fuel generalizing idx tries with
  | zero => exact absurd h (by simp [beReadLoop])
  | succ fuel ih =>
      by_cases h0 : obs idx = 0
      · exact ⟨idx, h0⟩
      · rcases hs : spinOwner obs (idx + 1) tries with _ | ⟨idx', tries'⟩
        · rw [show (beReadLoop obs mem (fuel + 1) idx tries).1 = BEReadRes.abortTimeout by
            simp [beReadLoop, h0, hs]] at h
          exact absurd h (by simp)
        · refine ih idx' tries' ?_
          have : (beReadLoop obs mem (fuel + 1) idx tries).1 =
              (beReadLoop obs mem fuel idx' tries').1 := by
            simp [beReadLoop, h0, hs]
          rw [this] at h
          exact h

/-- C8 counterexample: thread 1 sets its reader byte (the first action of
its read loop, taken while the lock is free) and thread 2 then successfully
CASes the writer field from 0 (write_ro checks only the owner word): the
reachable bytelock state has thread 1's reader byte at 1 while the writer
field holds thread 2 — neither 0 nor thread 1, refuting the claimed state
invariant. -/
theorem byteEager_reader_with_foreign_writer :
    blRun blInit [.setB 1, .casOwner 2] = some c8bad ∧
    c8bad.reader 1 = 1 ∧ c8bad.owner = 2 ∧ c8bad.owner ≠ 0 ∧ c8bad.owner ≠ 1 := by
  refine ⟨?_, ?_, rfl, by decide, by decide⟩
  · simp [blRun, blStep, blInit, c8bad]
  · simp [c8bad, Function.update_same]

/-- C8 (amended): what the bytelock protocol does guarantee: the writer
field is exclusive — in any successfully executed action sequence starting
from a state whose writer field holds a nonzero thread, the field keeps
that value and no CAS acquisition can occur until that thread's release;
and a read barrier only returns with its reader byte set after an owner
load observed 0.  A reader byte may however be 1 while another thread holds
the writer field (reader set-then-check window, writer drain phase), as the
counterexample shows. -/
theorem byteEager_bytelock_protocol (tr : List BLAct) (s s' : BLState)
    (obs : Nat → Nat) (mem : Word) (fuel : Nat) :
    (blRun s tr = some s' → s.owner ≠ 0 → BLAct.releaseOwner s.owner ∉ tr →
        s'.owner = s.owner ∧ ∀ t, BLAct.casOwner t ∉ tr) ∧
    ((beReadLoop obs mem fuel 0 0).1 = .ret mem → ∃ k, obs k = 0) := by
  exact ⟨fun h1 h2 h3 => blRun_owner_stable tr s s' h1 h2 h3,
         fun h => beReadLoop_ret_sees_zero obs mem fuel 0 0 h⟩

/-- C8 witness: a held lock survives a foreign reader-byte action with its
owner intact, and a read that returns saw the writer field free. -/
theorem byteEager_bytelock_protocol_witness :
    blRun c8held [BLAct.setB 1] = some c8heldR ∧
    c8held.owner ≠ 0 ∧
    BLAct.releaseOwner c8held.owner ∉ [BLAct.setB 1] ∧
    c8heldR.owner = c8held.owner ∧
    (beReadLoop obs0 exWord 1 0 0).1 = BEReadRes.ret exWord ∧
    (∃ k, obs0 k = 0) := by
  have h := byteEager_bytelock_protocol [BLAct.setB 1] c8held c8heldR obs0 exWord 1
  have hrun : blRun c8held [BLAct.setB 1] = some c8heldR := by
    simp [blRun, blStep, c8held, c8heldR]
  have h1 := h.1 hrun (by decide) (by decide)
  exact ⟨hrun, by decide, by decide, h1.1, rfl, h.2 rfl⟩

/-! ## C9: the FastlaneSwitch master falls out of turbo mode -/

/-- C9: a thread that wins the master CAS (master free, counter 0, wait
loop exiting at value MSB) finishes begin holding the master lock with the
counter incremented to odd — but with its read/write/commit pointers at the
read-only helper variants, not the turbo variants: the master branch has no
return, so the trailing helper-mode GoTurbo overwrites the turbo upgrade. -/
theorem fastlaneSwitch_begin_master_not_turbo :
    (fastlaneSwitchBegin ⟨0, 0⟩ ⟨.ro, 0⟩ true MSB32).2.mode = TMode.ro ∧
    (fastlaneSwitchBegin ⟨0, 0⟩ ⟨.ro, 0⟩ true MSB32).2.mode ≠ TMode.turbo ∧
    (fastlaneSwitchBegin ⟨0, 0⟩ ⟨.ro, 0⟩ true MSB32).1.master = 1 ∧
    (fastlaneSwitchBegin ⟨0, 0⟩ ⟨.ro, 0⟩ true MSB32).1.cntr % 2 = 1 := by
  refine ⟨by decide, by decide, by decide, by decide⟩

end RSTM
